import Mathlib

/-
  Verification development for the localization-manager editor extension.
  The definitions below are a shallow embedding of the translation-key
  extraction, store rebuild, context detection and completion ranking logic
  of the extension (src/unnamed/part_001 and src/src/extension.ts).
-/

namespace L10n

/-! ## JSON value model

A parsed JSON document as produced by JSON.parse: null, booleans, numbers,
strings, arrays and objects (objects as ordered association lists, matching
the enumeration order of Object.entries). -/

inductive Json where
  | null : Json
  | bool (b : Bool) : Json
  | num (n : Int) : Json
  | str (s : String) : Json
  | arr (items : List Json) : Json
  | obj (entries : List (String × Json)) : Json

/-- Key for an array element: the source computes
currentPrefix ? currentPrefix + "[" + index + "]" : String(index),
where the ternary condition is string truthiness (empty string is falsy). -/
def arrKey (p : String) (i : Nat) : String :=
  if p = "" then toString i else p ++ "[" ++ toString i ++ "]"

/-- Key for an object member: the source computes
currentPrefix ? currentPrefix + "." + key : key. -/
def objKey (p : String) (k : String) : String :=
  if p = "" then k else p ++ "." ++ k

/-! The traverse helper of extractTranslationData. The source first tests
the JavaScript falsiness guard `if (!current) return;` and then dispatches
on typeof. Folded into one case split with identical observable behavior:
null is falsy (skipped); booleans and numbers produce no entries whether or
not they are falsy; a string produces an entry exactly when it is non-empty
(the empty string is falsy and returns early); arrays and objects are never
falsy, so they are always traversed. -/

mutual

def traverse : Json → String → List (String × String)
  | .null, _ => []
  | .bool _, _ => []
  | .num _, _ => []
  | .str s, p => if s = "" then [] else [(p, s)]
  | .arr xs, p => traverseArr xs p 0
  | .obj kvs, p => traverseObj kvs p

def traverseArr : List Json → String → Nat → List (String × String)
  | [], _, _ => []
  | x :: xs, p, i => traverse x (arrKey p i) ++ traverseArr xs p (i + 1)

def traverseObj : List (String × Json) → String → List (String × String)
  | [], _ => []
  | (k, v) :: rest, p => traverse v (objKey p k) ++ traverseObj rest p

end

/-! ## JavaScript Map model

Association list with JavaScript Map semantics: set updates an existing
key in place (keeping its position) or appends; get returns the value of
the first (unique, for built maps) matching key. -/

def mapSet : List (String × String) → String → String → List (String × String)
  | [], k, v => [(k, v)]
  | (k0, v0) :: rest, k, v =>
    if k0 = k then (k0, v) :: rest else (k0, v0) :: mapSet rest k v

/-- All entries of a list inserted in order into an empty Map, as done by
the values accumulation of extractTranslationData. -/
def mapOf (es : List (String × String)) : List (String × String) :=
  es.foldl (fun m p => mapSet m p.1 p.2) []

def lookupV : List (String × String) → String → Option String
  | [], _ => none
  | (k0, v0) :: rest, k => if k0 = k then some v0 else lookupV rest k

/-- Result shape of extractTranslationData: the keys array (one push per
recorded leaf, in traversal order) and the values Map. -/
structure Extracted where
  keys : List String
  values : List (String × String)
deriving DecidableEq

/-- extractTranslationData(obj, prefix = ""): flattens a JSON value into
dot/bracket-notation keys with their string leaf values. -/
def extractTranslationData (j : Json) (p : String := "") : Extracted :=
  { keys := (traverse j p).map Prod.fst, values := mapOf (traverse j p) }

/-! Spec-side leaf counters, used to state the flattener cardinality
property of the specification. -/

mutual

def countStringLeaves : Json → Nat
  | .null => 0
  | .bool _ => 0
  | .num _ => 0
  | .str _ => 1
  | .arr xs => countStringLeavesArr xs
  | .obj kvs => countStringLeavesObj kvs

def countStringLeavesArr : List Json → Nat
  | [] => 0
  | x :: xs => countStringLeaves x + countStringLeavesArr xs

def countStringLeavesObj : List (String × Json) → Nat
  | [] => 0
  | (_, v) :: rest => countStringLeaves v + countStringLeavesObj rest

end

mutual

def countNonEmptyStringLeaves : Json → Nat
  | .null => 0
  | .bool _ => 0
  | .num _ => 0
  | .str s => if s = "" then 0 else 1
  | .arr xs => countNonEmptyStringLeavesArr xs
  | .obj kvs => countNonEmptyStringLeavesObj kvs

def countNonEmptyStringLeavesArr : List Json → Nat
  | [] => 0
  | x :: xs => countNonEmptyStringLeaves x + countNonEmptyStringLeavesArr xs

def countNonEmptyStringLeavesObj : List (String × Json) → Nat
  | [] => 0
  | (_, v) :: rest => countNonEmptyStringLeaves v + countNonEmptyStringLeavesObj rest

end

/-! ## File extension handling

Model of path.extname on a base name: the substring starting at the last
dot, unless that dot is the first character or there is no dot, in which
case the extension is empty. -/

def extname (s : String) : String :=
  let cs := s.data
  let revTail := cs.reverse.takeWhile (fun c => c ≠ '.')
  if revTail.length = cs.length then ""
  else if revTail.length + 1 = cs.length then ""
  else String.mk ('.' :: revTail.reverse)

def toLowerStr (s : String) : String := String.mk (s.data.map Char.toLower)

/-- The check path.extname(name).toLowerCase() === ".json" performed both
for directory entries and for file sources. -/
def isJsonExt (name : String) : Bool := toLowerStr (extname name) = ".json"

/-! ## Filesystem model for a rebuild

A node is a file (its parsed JSON document, or none when reading or
JSON.parse fails for it) or a directory with named entries in readdir
order. -/

inductive Fs where
  | file (doc : Option Json) : Fs
  | dir (entries : List (String × Fs)) : Fs

/-! processJsonFile of refreshTranslationCache. For a directory it iterates
the entries and recurses only on those whose name passes the .json
extension check; for a file it requires the extension check and then reads,
parses and flattens the document, appending extracted.keys to the
accumulated keys and inserting the pairs of the extracted.values Map (in
its iteration order) into the accumulated values; a read or parse failure
is caught per call and surfaces one warning for that file. The result
triple is (appended keys, value pairs inserted in order, warnings). -/

mutual

def processJsonFile (name : String) (node : Fs) :
    List String × List (String × String) × List String :=
  match node with
  | .dir entries => processDirEntries entries
  | .file doc =>
    if isJsonExt name then
      match doc with
      | some j => ((traverse j "").map Prod.fst, mapOf (traverse j ""), [])
      | none => ([], [], ["Error processing " ++ name])
    else ([], [], [])

def processDirEntries : List (String × Fs) →
    List String × List (String × String) × List String
  | [] => ([], [], [])
  | (n, child) :: rest =>
    if isJsonExt n then
      let r := processJsonFile n child
      let r2 := processDirEntries rest
      (r.1 ++ r2.1, r.2.1 ++ r2.2.1, r.2.2 ++ r2.2.2)
    else processDirEntries rest

end

/-- First-occurrence deduplication, the semantics of spreading a Set built
from an array. -/
def dedupAux : List String → List String → List String
  | [], _ => []
  | x :: xs, seen => if x ∈ seen then dedupAux xs seen else x :: dedupAux xs (x :: seen)

def dedupFirst (xs : List String) : List String := dedupAux xs []

/-- The global translation cache record: keys array, values Map and the
timestamp of the last rebuild. -/
structure Cache where
  keys : List String
  values : List (String × String)
  lastUpdate : Int
deriving DecidableEq

/-- refreshTranslationCache. The configuration is none when reading the
source list fails (the outer catch fires: an error message is surfaced and
the previously built cache is left in place); otherwise every source is
processed, the collected keys are deduplicated, the collected value pairs
are merged into one Map and the new cache (stamped with the current time)
replaces the old one, together with the per-file warnings. -/
def refreshTranslationCache (config : Option (List (String × Fs)))
    (old : Cache) (now : Int) : Cache × List String :=
  match config with
  | none => (old, ["Failed to refresh translation cache"])
  | some sources =>
    let rs := sources.map (fun s => processJsonFile s.1 s.2)
    ({ keys := dedupFirst (rs.map (fun r => r.1)).flatten,
       values := mapOf (rs.map (fun r => r.2.1)).flatten,
       lastUpdate := now },
     (rs.map (fun r => r.2.2)).flatten)

/-- The staleness gate of provideCompletionItems: when now minus the cache
timestamp strictly exceeds 300000 ms the handler awaits the rebuild, so the
answer is computed from the rebuilt cache; otherwise from the current one. -/
def provideCompletionStore (now : Int) (cache rebuilt : Cache) : Cache :=
  if now - cache.lastUpdate > 300000 then rebuilt else cache

/-! ## Completion filtering and ranking -/

/-- JavaScript String.prototype.startsWith. -/
def jsStartsWith (s pre : String) : Bool := pre.data.isPrefixOf s.data

/-- The key filter of provideCompletionItems: with no context every key
passes; with a context only keys that start with context + "." and differ
from the context survive. -/
def filterKeys (keys : List String) (ctx : String) : List String :=
  keys.filter (fun key =>
    if ctx = "" then true else jsStartsWith key (ctx ++ ".") && key ≠ ctx)

/-- JavaScript String.prototype.replace with a string pattern: removes the
first occurrence of the pattern (replacement is the empty string). -/
def removeFirstL (pat : List Char) : List Char → List Char
  | [] => []
  | c :: cs =>
    if pat.isPrefixOf (c :: cs) then (c :: cs).drop pat.length
    else c :: removeFirstL pat cs

/-- Display label computation: context ? key.replace(context + ".", "") : key. -/
def displayKey (ctx key : String) : String :=
  if ctx = "" then key else String.mk (removeFirstL (ctx ++ ".").data key.data)

/-- The filtered and rewritten completion labels, in key order (before the
final sort). -/
def rankKeys (keys : List String) (ctx : String) : List String :=
  (filterKeys keys ctx).map (displayKey ctx)

/-- Model of String.prototype.localeCompare as the code-point lexicographic
three-way comparison (locale collation agrees with it on the inputs under
consideration). -/
def localeCompare (a b : String) : Int :=
  match compare a b with
  | .lt => -1
  | .eq => 0
  | .gt => 1

/-- sortCompletionItems: exact matches with the query first, then labels
starting with the query, then the localeCompare fallback. -/
def sortCompletionItems (a b query : String) : Int :=
  if a = query ∧ b ≠ query then -1
  else if a ≠ query ∧ b = query then 1
  else if jsStartsWith a query ∧ ¬ jsStartsWith b query then -1
  else if ¬ jsStartsWith a query ∧ jsStartsWith b query then 1
  else localeCompare a b

/-- Stable insertion of one label into an already sorted list, placing it
after earlier labels that do not compare strictly greater. -/
def insertSorted (q x : String) : List String → List String
  | [] => [x]
  | y :: ys => if sortCompletionItems x y q < 0 then x :: y :: ys else y :: insertSorted q x ys

/-- The stable comparator sort applied to the completion labels. -/
def sortJS (labels : List String) (q : String) : List String :=
  labels.foldl (fun acc x => insertSorted q x acc) []

/-! ## Context detection

getContext applies five regular expressions, in order, to the document
text up to the cursor, and returns the first match whose group 1 is
non-empty (the truthiness test matches && matches[1]); when no pattern
yields one it returns the empty string, which callers treat as the absence
of a namespace. Each pattern is embedded as a deterministic matcher: every
quantifier in the originals is a greedy class repetition followed by a
character the class excludes, so maximal munch is exact, and the single
alternation (t|translate) is tried left to right as the regex engine does. -/

/-- The quote character class of the patterns: double quote, single quote,
backtick. -/
def isQuote (c : Char) : Bool :=
  c.val = 34 || c.val = 39 || c.val = 96

/-- The character class of the whitespace escape in the patterns. -/
def isJsSpace (c : Char) : Bool :=
  c.val = 9 || c.val = 10 || c.val = 11 || c.val = 12 || c.val = 13 ||
  c.val = 32 || c.val = 160 || c.val = 0x1680 ||
  (0x2000 ≤ c.val && c.val ≤ 0x200A) ||
  c.val = 0x2028 || c.val = 0x2029 || c.val = 0x202F ||
  c.val = 0x205F || c.val = 0x3000 || c.val = 0xFEFF

/-- Consume a literal token, or fail. -/
def dropLit (lit : List Char) (s : List Char) : Option (List Char) :=
  if lit.isPrefixOf s then some (s.drop lit.length) else none

/-- Consume greedy whitespace repetition. -/
def dropWs (s : List Char) : List Char := s.dropWhile isJsSpace

/-- Consume an opening quote, capture the greedy run of non-quote
characters, then consume a closing quote (any of the three); returns the
captured string and the remainder. -/
def readQuoted (s : List Char) : Option (String × List Char) :=
  match s with
  | [] => none
  | c :: rest =>
    if isQuote c then
      match rest.dropWhile (fun d => !(isQuote d)) with
      | [] => none
      | _ :: rest2 => some (String.mk (rest.takeWhile (fun d => !(isQuote d))), rest2)
    else none

/-- Pattern 1 at a position: the destructured hook declaration form
const { t } = useTranslation(quoted group) with a closing parenthesis;
yields group 1. -/
def p1At (s : List Char) : Option String := do
  let s1 ← dropLit "const".data s
  let s2 ← dropLit "\x7b".data (dropWs s1)
  let s3 ← dropLit "t".data (dropWs s2)
  let s4 ← dropLit "\x7d".data (dropWs s3)
  let s5 ← dropLit "=".data (dropWs s4)
  let s6 ← dropLit "useTranslation(".data (dropWs s5)
  let r ← readQuoted (dropWs s6)
  let _ ← dropLit ")".data r.2
  pure r.1

/-- Pattern 2 at a position: const t = useTranslation(quoted group) with a
closing parenthesis; yields group 1. -/
def p2At (s : List Char) : Option String := do
  let s1 ← dropLit "const".data s
  let s2 ← dropLit "t".data (dropWs s1)
  let s3 ← dropLit "=".data (dropWs s2)
  let s4 ← dropLit "useTranslation(".data (dropWs s3)
  let r ← readQuoted (dropWs s4)
  let _ ← dropLit ")".data r.2
  pure r.1

/-- Pattern 3 at a position: bare useTranslation(quoted group; yields
group 1. -/
def p3At (s : List Char) : Option String := do
  let s1 ← dropLit "useTranslation(".data s
  let r ← readQuoted (dropWs s1)
  pure r.1

/-- Pattern 4 at a position: useTranslation(quoted group) followed by .t;
yields group 1. -/
def p4At (s : List Char) : Option String := do
  let s1 ← dropLit "useTranslation(".data s
  let r ← readQuoted (dropWs s1)
  let s2 ← dropLit ")".data r.2
  let _ ← dropLit ".t".data s2
  pure r.1

/-- The common tail of pattern 5 after the method name: an opening
parenthesis, optional whitespace and a quoted string (group 2, unused by
the caller since group 1 is the alternation). -/
def p5Tail (s : List Char) : Option Unit := do
  let s1 ← dropLit "(".data s
  let _ ← readQuoted (dropWs s1)
  pure ()

/-- The second alternative of the alternation of pattern 5. -/
def p5Translate (s1 : List Char) : Option String := do
  let s2 ← dropLit "translate".data s1
  let _ ← p5Tail s2
  pure "translate"

/-- Pattern 5 at a position: a dot, the alternation of the method names t
and translate (tried in that order), then the quoted argument. Group 1 of
this pattern is the alternation, so the value produced is the method name
that matched, not the quoted argument. -/
def p5At (s : List Char) : Option String := do
  let s1 ← dropLit ".".data s
  match dropLit "t".data s1 with
  | some s2 =>
    match p5Tail s2 with
    | some _ => pure "t"
    | none => p5Translate s1
  | none => p5Translate s1

/-- Leftmost match: try the pattern at each start position from the left
and return the capture of the first position that matches. -/
def scanFirst (pAt : List Char → Option String) : List Char → Option String
  | [] => pAt []
  | c :: rest =>
    match pAt (c :: rest) with
    | some cap => some cap
    | none => scanFirst pAt rest

/-- The ordered pattern list of getContext. -/
def ctxPatterns : List (List Char → Option String) :=
  [scanFirst p1At, scanFirst p2At, scanFirst p3At, scanFirst p4At, scanFirst p5At]

/-- The pattern loop of getContext: the first pattern whose match has a
non-empty group 1 decides the result; a match with an empty group 1 is
falsy and the loop moves on, and when the list is exhausted the empty
string is returned. -/
def pickCtx : List (List Char → Option String) → List Char → String
  | [], _ => ""
  | f :: fs, t =>
    match f t with
    | some cap => if cap = "" then pickCtx fs t else cap
    | none => pickCtx fs t

/-- getContext on the document text up to the cursor. -/
def getContext (text : String) : String := pickCtx ctxPatterns text.data

/-- Left-biased choice on optional values, used to phrase the
later-source-wins property of the merged value mapping. -/
def optOr : Option String → Option String → Option String
  | some v, _ => some v
  | none, o => o

/-! ## Helper lemmas -/

mutual

theorem traverse_length : ∀ (j : Json) (p : String),
    (traverse j p).length = countNonEmptyStringLeaves j
  | .null, _ => by simp [traverse, countNonEmptyStringLeaves]
  | .bool _, _ => by simp [traverse, countNonEmptyStringLeaves]
  | .num _, _ => by simp [traverse, countNonEmptyStringLeaves]
  | .str s, _ => by
      by_cases h : s = "" <;> simp [traverse, countNonEmptyStringLeaves, h]
  | .arr xs, p => by
      simp [traverse, countNonEmptyStringLeaves, traverseArr_length xs p 0]
  | .obj kvs, p => by
      simp [traverse, countNonEmptyStringLeaves, traverseObj_length kvs p]

theorem traverseArr_length : ∀ (xs : List Json) (p : String) (i : Nat),
    (traverseArr xs p i).length = countNonEmptyStringLeavesArr xs
  | [], _, _ => by simp [traverseArr, countNonEmptyStringLeavesArr]
  | x :: xs, p, i => by
      simp [traverseArr, countNonEmptyStringLeavesArr, traverse_length x (arrKey p i),
        traverseArr_length xs p (i + 1)]

theorem traverseObj_length : ∀ (kvs : List (String × Json)) (p : String),
    (traverseObj kvs p).length = countNonEmptyStringLeavesObj kvs
  | [], _ => by simp [traverseObj, countNonEmptyStringLeavesObj]
  | (k, v) :: rest, p => by
      simp [traverseObj, countNonEmptyStringLeavesObj, traverse_length v (objKey p k),
        traverseObj_length rest p]

end

mutual

theorem traverse_snd_ne : ∀ (j : Json) (p : String) (pr : String × String),
    pr ∈ traverse j p → pr.2 ≠ ""
  | .null, _, _ => by simp [traverse]
  | .bool _, _, _ => by simp [traverse]
  | .num _, _, _ => by simp [traverse]
  | .str s, p, pr => by
      by_cases h : s = ""
      · simp [traverse, h]
      · simp only [traverse, if_neg h, List.mem_singleton]
        rintro rfl
        simpa using h
  | .arr xs, p, pr => fun hm => traverseArr_snd_ne xs p 0 pr (by simpa [traverse] using hm)
  | .obj kvs, p, pr => fun hm => traverseObj_snd_ne kvs p pr (by simpa [traverse] using hm)

theorem traverseArr_snd_ne : ∀ (xs : List Json) (p : String) (i : Nat) (pr : String × String),
    pr ∈ traverseArr xs p i → pr.2 ≠ ""
  | [], _, _, _ => by simp [traverseArr]
  | x :: xs, p, i, pr => by
      simp only [traverseArr, List.mem_append]
      rintro (h | h)
      · exact traverse_snd_ne x (arrKey p i) pr h
      · exact traverseArr_snd_ne xs p (i + 1) pr h

theorem traverseObj_snd_ne : ∀ (kvs : List (String × Json)) (p : String) (pr : String × String),
    pr ∈ traverseObj kvs p → pr.2 ≠ ""
  | [], _, _ => by simp [traverseObj]
  | (k, v) :: rest, p, pr => by
      simp only [traverseObj, List.mem_append]
      rintro (h | h)
      · exact traverse_snd_ne v (objKey p k) pr h
      · exact traverseObj_snd_ne rest p pr h

end

theorem optOr_none : ∀ (a : Option String), optOr a none = a
  | some _ => rfl
  | none => rfl

theorem optOr_assoc : ∀ (a b c : Option String), optOr (optOr a b) c = optOr a (optOr b c)
  | some _, _, _ => rfl
  | none, _, _ => rfl

theorem lookupV_append : ∀ (a b : List (String × String)) (k : String),
    lookupV (a ++ b) k = optOr (lookupV a k) (lookupV b k)
  | [], b, k => by simp [lookupV, optOr]
  | (k0, v0) :: rest, b, k => by
      by_cases h : k0 = k <;>
        simp [lookupV, h, optOr, lookupV_append rest b k]

theorem lookupV_mapSet : ∀ (m : List (String × String)) (k0 v0 k : String),
    lookupV (mapSet m k0 v0) k = if k0 = k then some v0 else lookupV m k
  | [], k0, v0, k => by simp [mapSet, lookupV]
  | (k1, v1) :: rest, k0, v0, k => by
      by_cases h1 : k1 = k0
      · subst h1
        by_cases h2 : k1 = k <;> simp [mapSet, lookupV, h2]
      · have h3 : ¬ (k0 = k1) := fun he => h1 he.symm
        by_cases h2 : k1 = k
        · subst h2
          simp [mapSet, h1, lookupV, h3]
        · simp [mapSet, h1, lookupV, h2, lookupV_mapSet rest k0 v0 k]

theorem lookupV_foldl_mapSet : ∀ (es m : List (String × String)) (k : String),
    lookupV (es.foldl (fun m p => mapSet m p.1 p.2) m) k =
      optOr (lookupV es.reverse k) (lookupV m k)
  | [], m, k => by simp [lookupV, optOr]
  | (k0, v0) :: es, m, k => by
      simp only [List.foldl_cons, List.reverse_cons]
      rw [lookupV_foldl_mapSet es (mapSet m k0 v0) k, lookupV_mapSet, lookupV_append,
        optOr_assoc]
      by_cases h : k0 = k <;> simp [lookupV, h, optOr]

/-- Reading the Map built from an entry list is reading the entry list from
its end: the last inserted value for a key wins. -/
theorem lookupV_mapOf (es : List (String × String)) (k : String) :
    lookupV (mapOf es) k = lookupV es.reverse k := by
  have h := lookupV_foldl_mapSet es [] k
  simpa [mapOf, lookupV, optOr_none] using h

theorem lookupV_isSome : ∀ (l : List (String × String)) (k : String),
    (lookupV l k).isSome = true ↔ k ∈ l.map Prod.fst
  | [], k => by simp [lookupV]
  | (k0, v0) :: rest, k => by
      by_cases h : k0 = k <;>
        simp [lookupV, h, lookupV_isSome rest k, eq_comm]

theorem mapSet_map_fst : ∀ (m : List (String × String)) (k v : String),
    (mapSet m k v).map Prod.fst =
      if k ∈ m.map Prod.fst then m.map Prod.fst else m.map Prod.fst ++ [k]
  | [], k, v => by simp [mapSet]
  | (k0, v0) :: rest, k, v => by
      by_cases h : k0 = k
      · subst h
        simp [mapSet]
      · have h2 : ¬ (k = k0) := fun he => h he.symm
        by_cases hm : k ∈ rest.map Prod.fst <;>
          simp [mapSet, h, h2, hm, mapSet_map_fst rest k v]

theorem mem_map_fst_foldl : ∀ (es m : List (String × String)) (k : String),
    k ∈ (es.foldl (fun m p => mapSet m p.1 p.2) m).map Prod.fst ↔
      k ∈ m.map Prod.fst ∨ k ∈ es.map Prod.fst
  | [], m, k => by simp
  | (k0, v0) :: es, m, k => by
      simp only [List.foldl_cons, mem_map_fst_foldl es (mapSet m k0 v0) k,
        mapSet_map_fst, List.map_cons, List.mem_cons]
      by_cases h : k0 ∈ m.map Prod.fst <;> by_cases h2 : k = k0 <;> simp [h, h2]

theorem mem_mapOf_fst (es : List (String × String)) (k : String) :
    k ∈ (mapOf es).map Prod.fst ↔ k ∈ es.map Prod.fst := by
  simpa [mapOf] using mem_map_fst_foldl es [] k

theorem mem_mapSet : ∀ (m : List (String × String)) (k v : String) (pr : String × String),
    pr ∈ mapSet m k v → pr ∈ m ∨ pr = (k, v)
  | [], k, v, pr => by simp [mapSet]
  | (k0, v0) :: rest, k, v, pr => by
      intro hmem
      by_cases h : k0 = k
      · subst h
        simp only [mapSet, if_pos rfl] at hmem
        rcases List.mem_cons.mp hmem with h1 | hm
        · exact Or.inr h1
        · exact Or.inl (List.mem_cons.mpr (Or.inr hm))
      · simp only [mapSet, if_neg h] at hmem
        rcases List.mem_cons.mp hmem with h1 | hm
        · exact Or.inl (List.mem_cons.mpr (Or.inl h1))
        · rcases mem_mapSet rest k v pr hm with h1 | h2
          · exact Or.inl (List.mem_cons.mpr (Or.inr h1))
          · exact Or.inr h2

theorem mem_foldl_mapSet : ∀ (es m : List (String × String)) (pr : String × String),
    pr ∈ es.foldl (fun m p => mapSet m p.1 p.2) m → pr ∈ m ∨ pr ∈ es
  | [], m, pr => fun h => Or.inl h
  | (k0, v0) :: es, m, pr => by
      intro h
      rcases mem_foldl_mapSet es (mapSet m k0 v0) pr h with h1 | h2
      · rcases mem_mapSet m k0 v0 pr h1 with h3 | h4
        · exact Or.inl h3
        · exact Or.inr (h4 ▸ List.mem_cons_self _ _)
      · exact Or.inr (List.mem_cons_of_mem _ h2)

theorem mem_mapOf (es : List (String × String)) (pr : String × String) :
    pr ∈ mapOf es → pr ∈ es := by
  intro h
  rcases mem_foldl_mapSet es [] pr h with h1 | h2
  · simp at h1
  · exact h2

theorem nodup_map_fst_mapSet (m : List (String × String)) (k v : String)
    (h : (m.map Prod.fst).Nodup) : ((mapSet m k v).map Prod.fst).Nodup := by
  rw [mapSet_map_fst]
  by_cases hm : k ∈ m.map Prod.fst <;> simp [hm, h, List.nodup_append]

theorem nodup_map_fst_foldl : ∀ (es m : List (String × String)),
    (m.map Prod.fst).Nodup → ((es.foldl (fun m p => mapSet m p.1 p.2) m).map Prod.fst).Nodup
  | [], m, h => h
  | (k0, v0) :: es, m, h =>
      nodup_map_fst_foldl es (mapSet m k0 v0) (nodup_map_fst_mapSet m k0 v0 h)

theorem nodup_mapOf_fst (es : List (String × String)) : ((mapOf es).map Prod.fst).Nodup :=
  nodup_map_fst_foldl es [] (by simp)

theorem mapSet_not_mem : ∀ (m : List (String × String)) (k v : String),
    k ∉ m.map Prod.fst → mapSet m k v = m ++ [(k, v)]
  | [], k, v, _ => rfl
  | (k0, v0) :: rest, k, v, h => by
      have hk : ¬ (k0 = k) := by
        intro he
        exact h (by simp [he])
      have hr : k ∉ rest.map Prod.fst := by
        intro hm
        exact h (by simp [hm])
      simp [mapSet, hk, mapSet_not_mem rest k v hr]

theorem foldl_mapSet_self : ∀ (es m : List (String × String)),
    ((m ++ es).map Prod.fst).Nodup → es.foldl (fun m p => mapSet m p.1 p.2) m = m ++ es
  | [], m, _ => by simp
  | (k, v) :: es, m, h => by
      have hk : k ∉ m.map Prod.fst := by
        simp only [List.map_append, List.map_cons, List.nodup_append, List.Disjoint] at h
        intro hm
        exact h.2.2 hm (by simp)
      have hrec := foldl_mapSet_self es (m ++ [(k, v)])
        (by simpa [List.append_assoc] using h)
      simp only [List.foldl_cons, mapSet_not_mem m k v hk]
      simpa [List.append_assoc] using hrec

/-- A list whose keys are distinct is a fixed point of Map construction. -/
theorem mapOf_self (es : List (String × String)) (h : (es.map Prod.fst).Nodup) :
    mapOf es = es := by
  simpa [mapOf] using foldl_mapSet_self es [] (by simpa)

theorem traverseObj_of_flat : ∀ (es : List (String × String)),
    (∀ pr ∈ es, pr.2 ≠ "") →
    traverseObj (es.map (fun pr => (pr.1, Json.str pr.2))) "" = es
  | [], _ => rfl
  | (k, v) :: es, h => by
      have hv : v ≠ "" := h (k, v) (List.mem_cons_self _ _)
      have ih := traverseObj_of_flat es (fun pr hpr => h pr (List.mem_cons_of_mem _ hpr))
      simp [traverseObj, traverse, objKey, hv, ih]

theorem mem_dedupAux : ∀ (xs seen : List String) (y : String),
    y ∈ dedupAux xs seen ↔ y ∈ xs ∧ y ∉ seen
  | [], seen, y => by simp [dedupAux]
  | x :: xs, seen, y => by
      by_cases h : x ∈ seen
      · simp only [dedupAux, if_pos h, mem_dedupAux xs seen y, List.mem_cons]
        constructor
        · rintro ⟨hy, hs⟩
          exact ⟨Or.inr hy, hs⟩
        · rintro ⟨(rfl | hy), hs⟩
          · exact absurd h hs
          · exact ⟨hy, hs⟩
      · simp only [dedupAux, if_neg h, List.mem_cons, mem_dedupAux xs (x :: seen) y]
        constructor
        · rintro (rfl | ⟨hy, hs⟩)
          · exact ⟨Or.inl rfl, h⟩
          · exact ⟨Or.inr hy, fun c => hs (Or.inr c)⟩
        · rintro ⟨(rfl | hy), hs⟩
          · exact Or.inl rfl
          · by_cases hx : y = x
            · exact Or.inl hx
            · exact Or.inr ⟨hy, by simp [hx, hs]⟩

theorem nodup_dedupAux : ∀ (xs seen : List String), (dedupAux xs seen).Nodup
  | [], _ => by simp [dedupAux]
  | x :: xs, seen => by
      by_cases h : x ∈ seen
      · simpa [dedupAux, h] using nodup_dedupAux xs seen
      · simp only [dedupAux, if_neg h, List.nodup_cons]
        refine ⟨fun hc => ?_, nodup_dedupAux xs (x :: seen)⟩
        exact ((mem_dedupAux xs (x :: seen) x).1 hc).2 (List.mem_cons_self _ _)

theorem mem_dedupFirst (xs : List String) (y : String) : y ∈ dedupFirst xs ↔ y ∈ xs := by
  simp [dedupFirst, mem_dedupAux]

theorem nodup_dedupFirst (xs : List String) : (dedupFirst xs).Nodup := nodup_dedupAux xs []

mutual

theorem process_keys_iff : ∀ (name : String) (node : Fs) (k : String),
    k ∈ (processJsonFile name node).1 ↔
      k ∈ ((processJsonFile name node).2.1).map Prod.fst
  | name, .file doc, k => by
      cases doc with
      | none => by_cases h : isJsonExt name <;> simp [processJsonFile, h]
      | some j =>
        by_cases h : isJsonExt name
        · simp only [processJsonFile, if_pos h]
          exact (mem_mapOf_fst (traverse j "") k).symm
        · simp [processJsonFile, h]
  | name, .dir entries, k => by
      simpa [processJsonFile] using processDir_keys_iff entries k

theorem processDir_keys_iff : ∀ (entries : List (String × Fs)) (k : String),
    k ∈ (processDirEntries entries).1 ↔
      k ∈ ((processDirEntries entries).2.1).map Prod.fst
  | [], k => by simp [processDirEntries]
  | (n, child) :: rest, k => by
      by_cases h : isJsonExt n
      · simp only [processDirEntries, if_pos h]
        simp [process_keys_iff n child k, processDir_keys_iff rest k]
      · simpa [processDirEntries, h] using processDir_keys_iff rest k

end

theorem processDir_filter : ∀ (entries : List (String × Fs)),
    processDirEntries entries =
      processDirEntries (entries.filter (fun e => isJsonExt e.1))
  | [] => rfl
  | (n, child) :: rest => by
      have ih := processDir_filter rest
      by_cases h : isJsonExt n <;>
        simp [processDirEntries, List.filter_cons, h, ← ih]

theorem removeFirstL_eq_drop : ∀ (pat s : List Char), pat.isPrefixOf s = true →
    removeFirstL pat s = s.drop pat.length
  | pat, [], h => by
      cases pat with
      | nil => simp [removeFirstL]
      | cons c cs => simp at h
  | pat, c :: cs, h => by simp [removeFirstL, h]

theorem strict_child_ne (ns k : String)
    (h : (ns ++ ".").data.isPrefixOf k.data = true) : k ≠ ns := by
  intro he
  subst he
  have hp := List.isPrefixOf_iff_prefix.mp h
  have hl := hp.length_le
  simp [String.data_append] at hl

theorem keys_values_flatten_iff : ∀ (sources : List (String × Fs)) (k : String),
    k ∈ (((sources.map (fun s => processJsonFile s.1 s.2)).map (fun r => r.1)).flatten) ↔
      k ∈ ((((sources.map (fun s => processJsonFile s.1 s.2)).map
        (fun r => r.2.1)).flatten).map Prod.fst)
  | [], k => by simp
  | s :: rest, k => by
      simp only [List.map_cons, List.flatten_cons, List.mem_append, List.map_append]
      exact or_congr (process_keys_iff s.1 s.2 k) (keys_values_flatten_iff rest k)

/-! ## Claim theorems -/

/-- C1, counterexample to the claim as stated: the document with the single
string leaf "" has one string leaf, yet the flattener emits no entry for
it, because the falsiness guard of the traversal returns early on the
empty string. -/
theorem c1_counterexample :
    (extractTranslationData (Json.obj [("a", Json.str "")]) "").keys.length ≠
      countStringLeaves (Json.obj [("a", Json.str "")]) := by
  decide

/-- C1 (amended): for every JSON value and every starting key, flatten
emits exactly one entry per non-empty string leaf encountered in
depth-first traversal, and no entry for non-string leaves, empty-string
leaves, or empty objects and arrays; hence for a tree whose leaves are all
non-empty strings the number of emitted entries equals the number of
string leaves. -/
theorem c1_flatten_entry_count (j : Json) (p : String) :
    (extractTranslationData j p).keys.length = countNonEmptyStringLeaves j := by
  simp [extractTranslationData, traverse_length]

/-- C2: with no namespace the completion filter passes all keys through
unmodified; with a namespace present it retains exactly the keys strictly
prefixed by namespace + "." (the key equal to the namespace itself can
never survive), and each survivor is rewritten by stripping the leading
namespace + "." before display; keys auth.login.title and
auth.register.title with namespace auth.login yield exactly the label
title. -/
theorem c2_namespace_filter (ns : String) (keys : List String) :
    rankKeys keys "" = keys ∧
    (ns ≠ "" →
      filterKeys keys ns =
        keys.filter (fun k => (ns ++ ".").data.isPrefixOf k.data) ∧
      ns ∉ filterKeys keys ns ∧
      rankKeys keys ns =
        (filterKeys keys ns).map
          (fun k => String.mk (k.data.drop (ns.data.length + 1)))) ∧
    rankKeys ["auth.login.title", "auth.register.title"] "auth.login" = ["title"] := by
  have hfilter : ns ≠ "" →
      filterKeys keys ns = keys.filter (fun k => (ns ++ ".").data.isPrefixOf k.data) := by
    intro hns
    apply List.filter_congr
    intro k _
    simp only [if_neg hns, jsStartsWith]
    cases hp : (ns ++ ".").data.isPrefixOf k.data with
    | false => simp
    | true => simp [strict_child_ne ns k hp]
  refine ⟨?_, fun hns => ⟨hfilter hns, ?_, ?_⟩, by decide⟩
  · simp only [rankKeys]
    rw [show filterKeys keys "" = keys from by simp [filterKeys]]
    exact (List.map_congr_left (fun k _ => by simp [displayKey])).trans (List.map_id _)
  · rw [hfilter hns]
    intro hmem
    have hp := (List.mem_filter.mp hmem).2
    exact strict_child_ne ns ns hp rfl
  · apply List.map_congr_left
    intro k hk
    rw [hfilter hns] at hk
    have hp := (List.mem_filter.mp hk).2
    simp only [displayKey, if_neg hns]
    rw [removeFirstL_eq_drop _ _ hp]
    congr 1
    simp [String.data_append]

/-- C2 witness at the concrete input of the specification test. -/
theorem c2_namespace_filter_witness :
    filterKeys ["auth.login.title", "auth.register.title"] "auth.login" =
      ["auth.login.title", "auth.register.title"].filter
        (fun k => ("auth.login" ++ ".").data.isPrefixOf k.data) ∧
    "auth.login" ∉ filterKeys ["auth.login.title", "auth.register.title"] "auth.login" ∧
    rankKeys ["auth.login.title", "auth.register.title"] "auth.login" =
      (filterKeys ["auth.login.title", "auth.register.title"] "auth.login").map
        (fun k => String.mk (k.data.drop ("auth.login".data.length + 1))) :=
  (c2_namespace_filter "auth.login" ["auth.login.title", "auth.register.title"]).2.1
    (by decide)

/-- C3: the completion comparator ranks an exact match with the query
before any non-exact label, then labels starting with the query before
those that do not, and otherwise falls back to the locale comparison
(modelled as code-point lexicographic); sorting the keys login,
login.title, alogin for query login yields exactly that order. -/
theorem c3_completion_sort (q a b : String) :
    (a = q → b ≠ q → sortCompletionItems a b q = -1) ∧
    (a ≠ q → b = q → sortCompletionItems a b q = 1) ∧
    (a ≠ q → b ≠ q → jsStartsWith a q = true → jsStartsWith b q = false →
      sortCompletionItems a b q = -1) ∧
    (a ≠ q → b ≠ q → jsStartsWith a q = false → jsStartsWith b q = true →
      sortCompletionItems a b q = 1) ∧
    (a ≠ q → b ≠ q → jsStartsWith a q = jsStartsWith b q →
      sortCompletionItems a b q = localeCompare a b) ∧
    sortJS ["login", "login.title", "alogin"] "login" =
      ["login", "login.title", "alogin"] := by
  refine ⟨?_, ?_, ?_, ?_, ?_, by decide⟩
  · intro h1 h2
    simp [sortCompletionItems, h1, h2]
  · intro h1 h2
    simp [sortCompletionItems, h1, h2]
  · intro h1 h2 h3 h4
    simp [sortCompletionItems, h1, h2, h3, h4]
  · intro h1 h2 h3 h4
    simp [sortCompletionItems, h1, h2, h3, h4]
  · intro h1 h2 h3
    cases hA : jsStartsWith a q <;> rw [hA] at h3 <;>
      simp [sortCompletionItems, h1, h2, hA, ← h3]

/-- C3 witness: the prefix tier applied at concrete labels. -/
theorem c3_completion_sort_witness :
    sortCompletionItems "login.title" "alogin" "login" = -1 :=
  (c3_completion_sort "login" "login.title" "alogin").2.2.1
    (by decide) (by decide) (by decide) (by decide)

/-- C4: evaluation of the context detector at the failing input. The fifth
pattern's first capture group is the method-name alternation, so the value
returned for a member call is the method name t or translate, not the
string in the key position; the earlier patterns still capture the
namespace of the spec test. -/
theorem c4_member_call_capture :
    getContext "foo.t(\"bar\")" = "t" ∧
    getContext "foo.translate(\"baz\")" = "translate" ∧
    getContext "const { t } = useTranslation(\"auth\")\nt(" = "auth" := by
  decide

/-- C5, counterexample to the claim as stated: a directory source whose
JSON file sits one level down inside a subdirectory without a .json
extension contributes no entries to the rebuild, although the descendant
file itself flattens to an entry. -/
theorem c5_counterexample :
    processJsonFile "locales"
      (Fs.dir [("en", Fs.dir [("common.json",
        Fs.file (some (Json.obj [("k", Json.str "v")])))])]) = ([], [], []) ∧
    (extractTranslationData (Json.obj [("k", Json.str "v")]) "").keys = ["k"] := by
  decide

/-- C5 (amended): a file source is included exactly when its extension is
.json (case-insensitively); a directory source processes only its entries
whose names pass the .json extension check, recursing solely through such
entries, so sibling entries without the extension (in particular plain
subdirectories) are filtered out entirely. -/
theorem c5_directory_enumeration (name : String) (doc : Json)
    (entries : List (String × Fs)) :
    (processJsonFile name (Fs.file (some doc)) =
      if isJsonExt name then ((traverse doc "").map Prod.fst, mapOf (traverse doc ""), [])
      else ([], [], [])) ∧
    processJsonFile name (Fs.dir entries) =
      processDirEntries (entries.filter (fun e => isJsonExt e.1)) ∧
    isJsonExt "A.JSON" = true ∧ isJsonExt "sub" = false := by
  refine ⟨rfl, ?_, by decide, by decide⟩
  simpa [processJsonFile] using processDir_filter entries

/-- C6, counterexample to the claim as stated: on a stale cache the
handler awaits the rebuild before answering, so the answer is computed
from the rebuilt store, not from the store that was current when the
query arrived. -/
theorem c6_counterexample :
    provideCompletionStore 300001 ⟨["old"], [("old", "0")], 0⟩
        ⟨["new"], [("new", "1")], 300001⟩ =
      ⟨["new"], [("new", "1")], 300001⟩ ∧
    (⟨["new"], [("new", "1")], 300001⟩ : Cache) ≠ ⟨["old"], [("old", "0")], 0⟩ := by
  decide

/-- C6 (amended): the staleness check fires exactly when now minus the
cache timestamp strictly exceeds 300000 ms (at exactly 300000 it does not
fire), and when it fires the request awaits the rebuild and answers from
the rebuilt store rather than scheduling it in the background. -/
theorem c6_staleness_boundary (c r : Cache) :
    provideCompletionStore (c.lastUpdate + 300000) c r = c ∧
    provideCompletionStore (c.lastUpdate + 300001) c r = r ∧
    ∀ (n : Int), provideCompletionStore n c r =
      if n - c.lastUpdate > 300000 then r else c := by
  refine ⟨?_, ?_, fun n => rfl⟩
  · have h : ¬ (c.lastUpdate + 300000 - c.lastUpdate > 300000) := by omega
    simp [provideCompletionStore, h]
  · have h : c.lastUpdate + 300001 - c.lastUpdate > 300000 := by omega
    simp [provideCompletionStore, h]

/-- C7: a rebuild-level failure surfaces an error and leaves the previous
store untouched; an unreadable or unparsable individual file is skipped
with a warning naming it while the rest of the sources still build and the
new store still replaces the old one (the built store never depends on the
previous store). -/
theorem c7_failure_isolation (old old2 : Cache) (now : Int)
    (pre post sources : List (String × Fs)) :
    (refreshTranslationCache none old now).1 = old ∧
    (refreshTranslationCache none old now).2 ≠ [] ∧
    (refreshTranslationCache (some (pre ++ ("bad.json", Fs.file none) :: post)) old now).1 =
      (refreshTranslationCache (some (pre ++ post)) old now).1 ∧
    "Error processing bad.json" ∈
      (refreshTranslationCache (some (pre ++ ("bad.json", Fs.file none) :: post)) old now).2 ∧
    (refreshTranslationCache (some sources) old now).1 =
      (refreshTranslationCache (some sources) old2 now).1 := by
  have hb : processJsonFile "bad.json" (Fs.file none) =
      ([], [], ["Error processing bad.json"]) := by decide
  refine ⟨rfl, by simp [refreshTranslationCache], ?_, ?_, rfl⟩
  · simp [refreshTranslationCache, hb, List.map_append, List.flatten_append]
  · simp [refreshTranslationCache, hb, List.map_append, List.flatten_append]

/-- C8: every successfully built store keeps its key sequence and value
mapping in lockstep (a key is in the sequence exactly when the mapping
resolves it), the key sequence holds no duplicates, and on key collision
the sources processed later win: a lookup in the store built from the
concatenated source list prefers the store built from the later part. -/
theorem c8_store_lockstep (sources : List (String × Fs)) (old : Cache) (now : Int) :
    (refreshTranslationCache (some sources) old now).1.keys.Nodup ∧
    (∀ k, k ∈ (refreshTranslationCache (some sources) old now).1.keys ↔
      (lookupV (refreshTranslationCache (some sources) old now).1.values k).isSome = true) ∧
    (∀ (a b : List (String × Fs)) (k : String),
      lookupV (refreshTranslationCache (some (a ++ b)) old now).1.values k =
        optOr (lookupV (refreshTranslationCache (some b) old now).1.values k)
              (lookupV (refreshTranslationCache (some a) old now).1.values k)) := by
  refine ⟨?_, ?_, ?_⟩
  · simp only [refreshTranslationCache]
    exact nodup_dedupFirst _
  · intro k
    simp only [refreshTranslationCache]
    rw [mem_dedupFirst, lookupV_isSome, keys_values_flatten_iff, mem_mapOf_fst]
  · intro a b k
    simp only [refreshTranslationCache, List.map_append, List.flatten_append]
    rw [lookupV_mapOf, lookupV_mapOf, lookupV_mapOf, List.reverse_append, lookupV_append]

/-- C9: flattening is idempotent, since every recorded value is a
non-empty string: re-flattening the built mapping, read back as a flat
one-level object, reproduces exactly that mapping, with one key per
entry. -/
theorem c9_flatten_idempotent (j : Json) :
    extractTranslationData
      (Json.obj ((extractTranslationData j "").values.map
        (fun pr => (pr.1, Json.str pr.2)))) "" =
    ⟨(extractTranslationData j "").values.map Prod.fst,
      (extractTranslationData j "").values⟩ := by
  have hne : ∀ pr ∈ mapOf (traverse j ""), pr.2 ≠ "" := fun pr hpr =>
    traverse_snd_ne j "" pr (mem_mapOf _ pr hpr)
  have htrav : traverseObj ((mapOf (traverse j "")).map
      (fun pr => (pr.1, Json.str pr.2))) "" = mapOf (traverse j "") :=
    traverseObj_of_flat _ hne
  have hself : mapOf (mapOf (traverse j "")) = mapOf (traverse j "") :=
    mapOf_self _ (nodup_mapOf_fst (traverse j ""))
  simp [extractTranslationData, traverse, htrav, hself]

/-- C10: in the pattern loop a match whose capture is the empty string is
treated as no match and detection falls through to the later patterns; the
loop result is either the empty string (absent) or a non-empty capture of
one of the patterns, so an empty-string literal never becomes the active
namespace; concretely a lone useTranslation with an empty literal detects
nothing, and with a later member call present the later pattern decides. -/
theorem c10_empty_capture_falls_through (f : List Char → Option String)
    (fs : List (List Char → Option String)) (t : List Char) :
    (f t = some "" → pickCtx (f :: fs) t = pickCtx fs t) ∧
    (f t = none → pickCtx (f :: fs) t = pickCtx fs t) ∧
    (pickCtx fs t = "" ∨
      ∃ g, g ∈ fs ∧ ∃ s, s ≠ "" ∧ g t = some s ∧ pickCtx fs t = s) ∧
    (scanFirst p3At "useTranslation(\"\")".data = some "" ∧
      getContext "useTranslation(\"\")" = "") ∧
    getContext "useTranslation(\"\")\nfoo.t(\"bar\")" = "t" := by
  refine ⟨?_, ?_, ?_, by decide, by decide⟩
  · intro h
    simp [pickCtx, h]
  · intro h
    simp [pickCtx, h]
  · induction fs with
    | nil => exact Or.inl rfl
    | cons g gs ih =>
      cases hg : g t with
      | none =>
        rcases ih with h1 | ⟨g2, hmem, s, hs, hgt, hpick⟩
        · exact Or.inl (by simp [pickCtx, hg, h1])
        · exact Or.inr ⟨g2, List.mem_cons_of_mem _ hmem, s, hs, hgt,
            by simp [pickCtx, hg, hpick]⟩
      | some cap =>
        by_cases hc : cap = ""
        · subst hc
          rcases ih with h1 | ⟨g2, hmem, s, hs, hgt, hpick⟩
          · exact Or.inl (by simp [pickCtx, hg, h1])
          · exact Or.inr ⟨g2, List.mem_cons_of_mem _ hmem, s, hs, hgt,
              by simp [pickCtx, hg, hpick]⟩
        · exact Or.inr ⟨g, List.mem_cons_self _ _, cap, hc, hg,
            by simp [pickCtx, hg, hc]⟩

/-- C10 witness: the third pattern matches the empty-literal text with an
empty capture and the loop falls through past it. -/
theorem c10_empty_capture_witness :
    pickCtx [scanFirst p3At, scanFirst p4At, scanFirst p5At]
        "useTranslation(\"\")".data =
      pickCtx [scanFirst p4At, scanFirst p5At] "useTranslation(\"\")".data :=
  (c10_empty_capture_falls_through (scanFirst p3At)
    [scanFirst p4At, scanFirst p5At] "useTranslation(\"\")".data).1 (by decide)

end L10n
